import Mathlib

/-!
Verification of the font-resolution logic of `font_management.py`
(repository maptoposter).  The Python functions `download_google_font`,
`load_fonts_from_path` and `load_fonts` are shallowly embedded as pure
Lean functions; filesystem and network effects are made explicit
(the set of existing paths is a list of strings threaded through the
computation, the style-sheet fetch and the per-URL asset downloads are
oracle parameters).  Python dicts are embedded as association lists with
Python semantics (assignment updates in place, new keys are appended,
iteration follows insertion order); the regexes of the source are
embedded as explicit leftmost-match scanners over the character list.
-/

namespace FontMgmt

/-! ## Python dict embedding (insertion-ordered association list) -/

/-- Python dict assignment: update an existing key in place, otherwise
append the new binding at the end. -/
def dinsert {α β : Type} [DecidableEq α] : List (α × β) → α → β → List (α × β)
  | [], k, v => [(k, v)]
  | (k2, v2) :: rest, k, v =>
      if k2 = k then (k2, v) :: rest else (k2, v2) :: dinsert rest k v

/-- Python dict lookup (first binding of the key). -/
def dget? {α β : Type} [DecidableEq α] : List (α × β) → α → Option β
  | [], _ => none
  | (k2, v) :: rest, k => if k2 = k then some v else dget? rest k

/-- Python `k in d`. -/
def dmem {α β : Type} [DecidableEq α] (m : List (α × β)) (k : α) : Bool :=
  (dget? m k).isSome

/-! ## String utilities used by the source -/

/-- Python `str.lower()` (ASCII-faithful), character by character. -/
def pyLower (s : String) : String := String.mk (s.data.map Char.toLower)

/-- Python regex class backslash-s over the ASCII range. -/
def pyIsSpace (c : Char) : Bool :=
  c = ' ' || c = '\t' || c = '\n' || c = '\r' || c = '\x0b' || c = '\x0c'

/-- Value of a digit string, as Python `int` on a run of decimal digits. -/
def digitsVal (ds : List Char) : Nat :=
  ds.foldl (fun n c => 10 * n + (c.toNat - 48)) 0

/-- Python truthiness of an optional string (`None` and the empty string
are falsy). -/
def pyTruthyStr : Option String → Bool
  | none => false
  | some s => !s.isEmpty

/-- `font_family.replace(" ", "_").lower()` from line 33 of the source. -/
def fontNameSafe (s : String) : String :=
  pyLower (String.mk (s.data.map (fun c => if c = ' ' then '_' else c)))

/-! ## Regex models for the style-sheet parser

`re.search(r"font-weight:\s*(\d+)", block)`: leftmost position where the
literal `font-weight:` is followed by optional whitespace and at least
one digit; the captured group is the maximal digit run (greedy). -/

/-- Attempt the `font-weight:\s*(\d+)` match anchored at the head of the
character list. -/
def matchWeightAt (s : List Char) : Option Int :=
  if ("font-weight:".toList).isPrefixOf s then
    let ds := ((s.drop 12).dropWhile pyIsSpace).takeWhile Char.isDigit
    if ds.isEmpty then none else some (Int.ofNat (digitsVal ds))
  else none

/-- Leftmost-match scan for `font-weight:\s*(\d+)`. -/
def searchWeight : List Char → Option Int
  | [] => none
  | c :: rest =>
      match matchWeightAt (c :: rest) with
      | some w => some w
      | none => searchWeight rest

/-- Integer weight extracted from one style-rule block (source line 62). -/
def extract_weight (block : String) : Option Int :=
  searchWeight block.toList

/-- Body check for the captured group of
`url\((https://[^)]+\.(woff2|ttf))\)`: the group starts with
`https://`, contains no closing parenthesis (enforced by construction),
and ends in `.woff2` or `.ttf` with at least one character matched by
the `[^)]+` part. -/
def urlBodyOk (body : List Char) : Bool :=
  (".woff2".toList.isSuffixOf body && decide (15 ≤ body.length)) ||
  (".ttf".toList.isSuffixOf body && decide (13 ≤ body.length))

/-- Attempt the URL match anchored at the head of the character list.
The captured group runs from after `url(` to the first closing
parenthesis, which must exist. -/
def matchUrlAt (s : List Char) : Option (List Char) :=
  if ("url(https://".toList).isPrefixOf s then
    let t := s.drop 4
    let body := t.takeWhile (fun c => c ≠ ')')
    if body.length < t.length && urlBodyOk body then some body else none
  else none

/-- Leftmost-match scan for `url\((https://[^)]+\.(woff2|ttf))\)`. -/
def searchUrl : List Char → Option (List Char)
  | [] => none
  | c :: rest =>
      match matchUrlAt (c :: rest) with
      | some b => some b
      | none => searchUrl rest

/-- Asset URL extracted from one style-rule block (source line 69). -/
def extract_url (block : String) : Option String :=
  (searchUrl block.toList).map String.mk

/-! ## `re.split(r"@font-face\s*\{", css_content)` (source line 58) -/

/-- Attempt the split-pattern match anchored at the head of the list:
`@font-face`, then greedy whitespace, then an opening brace.  Returns
the remainder after the consumed match. -/
def matchFFAt (s : List Char) : Option (List Char) :=
  if ("@font-face".toList).isPrefixOf s then
    match (s.drop 10).dropWhile pyIsSpace with
    | c :: rest => if c = '\x7b' then some rest else none
    | [] => none
  else none

/-- The split: scan left to right; at each match boundary close the
current piece and continue after the consumed separator. -/
def splitFF (s : List Char) : List (List Char) :=
  match h : matchFFAt s with
  | some rest2 => [] :: splitFF rest2
  | none =>
      match s with
      | [] => [[]]
      | c :: rest =>
          match splitFF rest with
          | [] => [[c]]
          | piece :: more => (c :: piece) :: more
termination_by s.length
decreasing_by
  · unfold matchFFAt at h
    split at h
    case isTrue hp =>
      have hlen : 10 ≤ s.length := by
        have := List.IsPrefix.length_le (List.isPrefixOf_iff_prefix.mp hp)
        simpa using this
      have hdwle :
          ∀ l : List Char, (l.dropWhile pyIsSpace).length ≤ l.length := by
        intro l
        induction l with
        | nil => simp
        | cons c rest ih => by_cases hc : pyIsSpace c <;> simp [List.dropWhile, hc] <;> omega
      have hdw : ((s.drop 10).dropWhile pyIsSpace).length ≤ s.length - 10 := by
        have h1 := hdwle (s.drop 10)
        simpa [List.length_drop] using h1
      split at h
      case h_1 c rest hh =>
        split at h
        · have hr : rest = rest2 := by injection h
          subst hr
          rw [hh] at hdw
          simp only [List.length_cons] at hdw
          omega
        · exact absurd h (by simp)
      case h_2 => exact absurd h (by simp)
    case isFalse hp => exact absurd h (by simp)
  · simp

/-- String-level wrapper for the split of source line 58. -/
def splitFontFace (css : String) : List String :=
  (splitFF css.toList).map String.mk

/-- Weight/URL pair of one block: skipped if either the weight or the
URL is absent (source lines 62-71). -/
def blockEntry (b : String) : Option (Int × String) :=
  match extract_weight b with
  | none => none
  | some w =>
      match extract_url b with
      | some u => some (w, u)
      | none => none

/-- `weight_url_map` built across all blocks (source lines 55-71):
later blocks with the same weight overwrite earlier ones. -/
def buildWeightUrlMap (blocks : List String) : List (Int × String) :=
  blocks.foldl
    (fun m b =>
      match blockEntry b with
      | some wu => dinsert m wu.1 wu.2
      | none => m)
    []

/-! ## `download_google_font` (source lines 17-134)

Effects are explicit: `cssR` is the outcome of the style-sheet request
(an `Except` whose error is the exception text of a timeout, network
failure or non-2xx status), `dl` tells whether the asset download of a
given URL succeeds, and the filesystem is the list of existing paths.
Only the log lines a claim refers to (the closest-weight substitution
notice and the top-level error diagnostic) are modelled. -/

/-- `weight_map = {300: "light", 400: "regular", 700: "bold"}`
(source line 74). -/
def weight_map : List (Int × String) :=
  [(300, "light"), (400, "regular"), (700, "bold")]

/-- Python `min(iterable, key=f)`: first element attaining the minimal
key, scanning left to right (`none` on the empty list, where Python
raises). -/
def pyMinKey (f : Int → Nat) : List Int → Option Int
  | [] => none
  | x :: xs => some (xs.foldl (fun best a => if f a < f best then a else best) x)

/-- State threaded through the per-weight download loop. -/
structure LoopState where
  ff : List (String × String)
  fs : List String
  dls : List (String × String)
  logs : List String
deriving Repr, DecidableEq

/-- Source lines 81-92: exact lookup of the requested weight, with the
closest-weight substitution (and its informational log line) when it is
absent and the map is non-empty. -/
def resolveStep (wum : List (Int × String)) (w : Int) :
    Option String × List String :=
  let key := (dget? weight_map w).getD "regular"
  if !pyTruthyStr (dget? wum w) && !wum.isEmpty then
    match pyMinKey (fun x => (x - w).natAbs) (wum.map Prod.fst) with
    | some cw =>
        (dget? wum cw,
         ["  Using weight " ++ toString cw ++ " for " ++ key ++
          " (requested " ++ toString w ++ " not available)"])
    | none => (dget? wum w, [])
  else (dget? wum w, [])

/-- Source lines 96-100: the deterministic cache path of one role
(`FONTS_CACHE_DIR / f"{font_name_safe}_{weight_key}.{file_ext}"`). -/
def cachePath (fam key u : String) : String :=
  "fonts/cache/" ++ fontNameSafe fam ++ "_" ++ key ++ "." ++
    (if u.endsWith ".woff2" then "woff2" else "ttf")

/-- Source lines 102-114: cache check, download on a miss (skipping the
role if the download raises), record of the role path. -/
def fetchAsset (dl : String → Bool) (fam key u : String)
    (ff : List (String × String)) (fs : List String) (ls : List String) :
    LoopState :=
  let p := cachePath fam key u
  if fs.contains p then
    ⟨dinsert ff key p, fs, [], ls⟩
  else if dl u then
    ⟨dinsert ff key p, p :: fs, [(u, p)], ls⟩
  else
    ⟨ff, fs, [], ls⟩

/-- Body of the `for weight in weights` loop (source lines 77-114) for a
single weight: role lookup, closest-weight substitution when the exact
weight is absent, cache check, download. -/
def dlStep (fam : String) (dl : String → Bool) (wum : List (Int × String))
    (w : Int) (ff : List (String × String)) (fs : List String) : LoopState :=
  let key := (dget? weight_map w).getD "regular"
  let sub := resolveStep wum w
  match sub.1 with
  | some u =>
      if !u.isEmpty then fetchAsset dl fam key u ff fs sub.2
      else ⟨ff, fs, [], sub.2⟩
  | none => ⟨ff, fs, [], sub.2⟩

/-- The whole per-weight loop; `dls` collects the `(URL, cache path)`
pairs actually fetched from the network. -/
def dlLoop (fam : String) (dl : String → Bool) (wum : List (Int × String)) :
    List Int → List (String × String) → List String → LoopState
  | [], ff, fs => ⟨ff, fs, [], []⟩
  | w :: ws, ff, fs =>
      let st := dlStep fam dl wum w ff fs
      let r := dlLoop fam dl wum ws st.ff st.fs
      ⟨r.ff, r.fs, st.dls ++ r.dls, st.logs ++ r.logs⟩

/-- Source lines 116-120: if `regular` is absent but something was
downloaded, promote the first inserted value to `regular`. -/
def promoteRegular (ff : List (String × String)) : List (String × String) :=
  match ff with
  | [] => ff
  | (_, v) :: _ => if dmem ff "regular" then ff else dinsert ff "regular" v

/-- Source lines 122-128: duplicate `regular` into a missing role. -/
def dupRegularTo (ff : List (String × String)) (k : String) :
    List (String × String) :=
  match dget? ff "regular" with
  | some v => if dmem ff k then ff else dinsert ff k v
  | none => ff

/-- Result of `download_google_font`: the optional FontSet plus the
explicit effects. -/
structure DgfResult where
  result : Option (List (String × String))
  fs : List String
  downloads : List (String × String)
  logs : List String
deriving Repr, DecidableEq

/-- Shallow embedding of `download_google_font` (source lines 17-134). -/
def download_google_font (fam : String) (weights : List Int)
    (cssR : Except String String) (dl : String → Bool) (fs0 : List String) :
    DgfResult :=
  match cssR with
  | .error e =>
      ⟨none, fs0, [],
       ["⚠ Error downloading Google Font \x27" ++ fam ++ "\x27: " ++ e]⟩
  | .ok css =>
      let blocks := (splitFontFace css).drop 1
      let wum := buildWeightUrlMap blocks
      let st := dlLoop fam dl wum weights [] fs0
      let ff3 := dupRegularTo (dupRegularTo (promoteRegular st.ff) "bold") "light"
      ⟨if ff3.isEmpty then none else some ff3, st.fs, st.dls, st.logs⟩

/-! ## `load_fonts_from_path` (source lines 137-260) -/

/-- A directory entry as seen by `Path.iterdir()`: its final name
component, its full path string, and whether it is a regular file. -/
structure FileEntry where
  name : String
  path : String
  isFile : Bool
deriving Repr, DecidableEq

/-- What the argument path resolves to on disk. -/
inductive PathKind
  | isfile
  | isdir
  | other
  | missing
deriving Repr, DecidableEq

/-- Index of the last dot of the name, as Python `str.rfind('.')`. -/
def rfindDotAux : List Char → Nat → Option Nat → Option Nat
  | [], _, best => best
  | c :: rest, i, best =>
      rfindDotAux rest (i + 1) (if c = '.' then some i else best)

/-- `PurePath.suffix` of a name component (CPython: the part from the
last dot on, provided that dot is neither first nor last). -/
def pySuffix (name : String) : String :=
  let cs := name.toList
  match rfindDotAux cs 0 none with
  | some i => if 0 < i ∧ i < cs.length - 1 then String.mk (cs.drop i) else ""
  | none => ""

/-- `PurePath.stem` of a name component. -/
def pyStem (name : String) : String :=
  let cs := name.toList
  match rfindDotAux cs 0 none with
  | some i => if 0 < i ∧ i < cs.length - 1 then String.mk (cs.take i) else name
  | none => name

/-- Final name component of a POSIX path string. -/
def lastComp (p : String) : String :=
  String.mk ((p.toList.reverse.takeWhile (fun c => c ≠ '/')).reverse)

/-- `SUPPORTED_EXTS` (source line 169). -/
def SUPPORTED_EXTS : List String := [".ttf", ".otf", ".woff", ".woff2"]

/-- `weight_patterns` for the bold role (source lines 205-209). -/
def boldPatterns : List String := ["bold", "700", "^b_"]

/-- `weight_patterns` for the regular role (source lines 210-215). -/
def regularPatterns : List String := ["regular", "400", "normal", "^r_"]

/-- `weight_patterns` for the light role (source lines 216-221). -/
def lightPatterns : List String := ["light", "300", "thin", "^l_"]

/-- `weight_patterns` in dict insertion order (source lines 204-222). -/
def weight_patterns : List (String × List String) :=
  [("bold", boldPatterns), ("regular", regularPatterns), ("light", lightPatterns)]

/-- Substring containment over character lists. -/
def containsSub (pat : List Char) : List Char → Bool
  | [] => pat.isEmpty
  | c :: rest => pat.isPrefixOf (c :: rest) || containsSub pat rest

/-- `re.search(pattern, name)` for the literal weight patterns of the
source: a leading caret anchors at the start, otherwise substring. -/
def reSearchPat (pat : String) (s : String) : Bool :=
  match pat.toList with
  | '^' :: rest => rest.isPrefixOf s.toList
  | l => containsSub l s.toList

/-- Candidate test of one role: any of its patterns matches the
lowercased stem (source lines 227-228). -/
def roleMatches (pats : List String) (c : FileEntry) : Bool :=
  pats.any (fun p => reSearchPat p (pyLower (pyStem c.name)))

/-- `font_candidates` filter of source lines 194-197. -/
def fontCandidates (entries : List FileEntry) : List FileEntry :=
  entries.filter (fun f => f.isFile && SUPPORTED_EXTS.contains (pyLower (pySuffix f.name)))

/-- Source lines 225-230: for each role in dict order scan all
candidates, taking the first match (the inner break). -/
def assignWeights (cands : List FileEntry) : List (String × String) :=
  weight_patterns.foldl
    (fun ff rp =>
      match cands.find? (roleMatches rp.2) with
      | some c => dinsert ff rp.1 c.path
      | none => ff)
    []

/-- Source lines 232-248: fill still-missing roles with the first
candidate; if nothing matched at all, all three roles get the first
candidate. -/
def fillFromFirst (cands : List FileEntry) (ff : List (String × String)) :
    List (String × String) :=
  if !cands.isEmpty && !ff.isEmpty then
    match cands with
    | [] => ff
    | c0 :: _ =>
        let a := if dmem ff "regular" then ff else dinsert ff "regular" c0.path
        let b := if dmem a "bold" then a else dinsert a "bold" c0.path
        if dmem b "light" then b else dinsert b "light" c0.path
  else if !cands.isEmpty && ff.isEmpty then
    match cands with
    | [] => ff
    | c0 :: _ => [("bold", c0.path), ("regular", c0.path), ("light", c0.path)]
  else ff

/-- Shallow embedding of `load_fonts_from_path` (source lines 137-260).
`fpath` is the already resolved absolute path string, `kind` what it is
on disk, `entries` the directory listing when it is a directory. -/
def load_fonts_from_path (fpath : String) (kind : PathKind)
    (entries : List FileEntry) : Option (List (String × String)) :=
  match kind with
  | .missing => none
  | .isfile =>
      if SUPPORTED_EXTS.contains (pyLower (pySuffix (lastComp fpath))) then
        some [("bold", fpath), ("regular", fpath), ("light", fpath)]
      else none
  | .isdir =>
      let cands := fontCandidates entries
      if cands.isEmpty then none
      else
        let ff := fillFromFirst cands (assignWeights cands)
        if ff.isEmpty then none else some ff
  | .other => none

/-! ## `load_fonts` (source lines 263-312) -/

/-- Result of `load_fonts` plus which of the two sub-resolvers were
actually invoked. -/
structure LoadFontsResult where
  result : Option (List (String × String))
  remoteCalled : Bool
  localCalled : Bool
deriving Repr, DecidableEq

/-- The three bundled default paths (source lines 300-304), in dict
order. -/
def defaultFonts : List (String × String) :=
  [("bold", "fonts/Roboto-Bold.ttf"),
   ("regular", "fonts/Roboto-Regular.ttf"),
   ("light", "fonts/Roboto-Light.ttf")]

/-- The verification loop of source lines 307-310 (early return at the
first missing path). -/
def checkPaths (pexists : String → Bool) : List (String × String) → Bool
  | [] => true
  | kv :: rest => if pexists kv.2 then checkPaths pexists rest else false

/-- Priority 3 of `load_fonts`: the bundled Roboto defaults, verified
on disk. -/
def loadDefault (pexists : String → Bool) : Option (List (String × String)) :=
  if checkPaths pexists defaultFonts then some defaultFonts else none

/-- Priorities 2 and 3 of `load_fonts` (source lines 292-312);
`remote` records whether priority 1 was attempted. -/
def loadStage23 (fpathArg : Option String)
    (resolveLocal : String → Option (List (String × String)))
    (pexists : String → Bool) (remote : Bool) : LoadFontsResult :=
  match fpathArg with
  | some p =>
      if !p.isEmpty then
        match resolveLocal p with
        | some fonts => ⟨some fonts, remote, true⟩
        | none => ⟨loadDefault pexists, remote, true⟩
      else ⟨loadDefault pexists, remote, false⟩
  | none => ⟨loadDefault pexists, remote, false⟩

/-- Shallow embedding of `load_fonts` (source lines 263-312),
parameterized by the two sub-resolvers. -/
def load_fonts (family : Option String) (fpathArg : Option String)
    (fetch : String → Option (List (String × String)))
    (resolveLocal : String → Option (List (String × String)))
    (pexists : String → Bool) : LoadFontsResult :=
  match family with
  | some s =>
      if !s.isEmpty && !(pyLower s == "roboto") then
        match fetch s with
        | some fonts => ⟨some fonts, true, false⟩
        | none => loadStage23 fpathArg resolveLocal pexists true
      else loadStage23 fpathArg resolveLocal pexists false
  | none => loadStage23 fpathArg resolveLocal pexists false

/-- `load_fonts` with the two sub-resolvers instantiated by the
embeddings above (as the source composes them, with the default weight
list). -/
def load_fonts_full (family fpathArg : Option String)
    (cssR : Except String String) (dl : String → Bool) (fs0 : List String)
    (kind : PathKind) (entries : List FileEntry) (pexists : String → Bool) :
    LoadFontsResult :=
  load_fonts family fpathArg
    (fun s => (download_google_font s [300, 400, 700] cssR dl fs0).result)
    (fun p => load_fonts_from_path p kind entries)
    pexists

/-! ## Dict lemmas -/

theorem dget?_dinsert {α β : Type} [DecidableEq α] (m : List (α × β))
    (k k2 : α) (v : β) :
    dget? (dinsert m k v) k2 = if k = k2 then some v else dget? m k2 := by
  induction m with
  | nil => by_cases h : k = k2 <;> simp [dinsert, dget?, h]
  | cons kv rest ih =>
      obtain ⟨a, b⟩ := kv
      by_cases h1 : a = k
      · subst h1
        by_cases h2 : a = k2 <;> simp [dinsert, dget?, h2]
      · by_cases h2 : a = k2
        · subst h2
          have hk : ¬ k = a := fun hc => h1 hc.symm
          simp [dinsert, dget?, h1, hk]
        · simp [dinsert, dget?, h1, h2, ih]

theorem mem_dinsert {α β : Type} [DecidableEq α] :
    ∀ {m : List (α × β)} {k : α} {v : β} {kv : α × β},
      kv ∈ dinsert m k v → kv = (k, v) ∨ kv ∈ m := by
  intro m
  induction m with
  | nil =>
      intro k v kv h
      left
      simpa [dinsert] using h
  | cons kv2 rest ih =>
      intro k v kv h
      obtain ⟨a, b⟩ := kv2
      by_cases h1 : a = k
      · rw [show dinsert ((a, b) :: rest) k v = (a, v) :: rest by
            simp [dinsert, h1]] at h
        rcases List.mem_cons.mp h with h2 | h2
        · exact Or.inl (by simp [h2, h1])
        · exact Or.inr (List.mem_cons_of_mem _ h2)
      · rw [show dinsert ((a, b) :: rest) k v = (a, b) :: dinsert rest k v by
            simp [dinsert, h1]] at h
        rcases List.mem_cons.mp h with h2 | h2
        · exact Or.inr (by simp [h2])
        · rcases ih h2 with h3 | h3
          · exact Or.inl h3
          · exact Or.inr (List.mem_cons_of_mem _ h3)

theorem dget?_some_mem {α β : Type} [DecidableEq α] :
    ∀ {m : List (α × β)} {k : α} {v : β},
      dget? m k = some v → (k, v) ∈ m := by
  intro m
  induction m with
  | nil => intro k v h; simp [dget?] at h
  | cons kv rest ih =>
      intro k v h
      obtain ⟨a, b⟩ := kv
      by_cases h1 : a = k
      · rw [show dget? ((a, b) :: rest) k = some b by simp [dget?, h1]] at h
        have hb : b = v := by injection h
        subst hb
        subst h1
        exact List.mem_cons_self _ _
      · rw [show dget? ((a, b) :: rest) k = dget? rest k by simp [dget?, h1]] at h
        exact List.mem_cons_of_mem _ (ih h)

theorem dget?_eq_none_of_not_key {α β : Type} [DecidableEq α]
    {m : List (α × β)} {k : α} (h : k ∉ m.map Prod.fst) :
    dget? m k = none := by
  induction m with
  | nil => simp [dget?]
  | cons kv rest ih =>
      obtain ⟨a, b⟩ := kv
      simp only [List.map_cons, List.mem_cons] at h
      push_neg at h
      have ha : ¬ a = k := fun hc => h.1 hc.symm
      simp [dget?, ha, ih h.2]

/-! ## Python `min(_, key=_)` -/

theorem foldMin_spec (f : Int → Nat) :
    ∀ (xs : List Int) (x : Int),
      (xs.foldl (fun best a => if f a < f best then a else best) x) ∈ x :: xs ∧
      (∀ b ∈ x :: xs,
        f (xs.foldl (fun best a => if f a < f best then a else best) x) ≤ f b) ∧
      (x :: xs).find?
          (fun b =>
            decide (f b ≤ f (xs.foldl (fun best a => if f a < f best then a else best) x))) =
        some (xs.foldl (fun best a => if f a < f best then a else best) x) := by
  intro xs
  induction xs with
  | nil =>
      intro x
      refine ⟨by simp, by simp, ?_⟩
      simp [List.find?]
  | cons a rest ih =>
      intro x
      simp only [List.foldl_cons]
      by_cases hfa : f a < f x
      · simp only [if_pos hfa]
        obtain ⟨hmem, hmin, hfind⟩ := ih a
        refine ⟨List.mem_cons_of_mem _ hmem, ?_, ?_⟩
        · intro y hy
          rcases List.mem_cons.mp hy with hy | hy
          · subst hy
            exact le_trans (hmin a (List.mem_cons_self _ _)) (le_of_lt hfa)
          · exact hmin y hy
        · have hlt :
              f (rest.foldl (fun best a => if f a < f best then a else best) a) < f x :=
            lt_of_le_of_lt (hmin a (List.mem_cons_self _ _)) hfa
          have hpx :
              decide (f x ≤ f (rest.foldl (fun best a => if f a < f best then a else best) a)) = false :=
            decide_eq_false (Nat.not_le.mpr hlt)
          rw [List.find?_cons, hpx]
          exact hfind
      · simp only [if_neg hfa]
        obtain ⟨hmem, hmin, hfind⟩ := ih x
        have hxa : f x ≤ f a := Nat.le_of_not_lt hfa
        refine ⟨?_, ?_, ?_⟩
        · rcases List.mem_cons.mp hmem with hm | hm
          · exact List.mem_cons.mpr (Or.inl hm)
          · exact List.mem_cons.mpr (Or.inr (List.mem_cons.mpr (Or.inr hm)))
        · intro y hy
          rcases List.mem_cons.mp hy with hy | hy
          · subst hy
            exact hmin y (List.mem_cons_self _ _)
          · rcases List.mem_cons.mp hy with hy | hy
            · subst hy
              exact le_trans (hmin x (List.mem_cons_self _ _)) hxa
            · exact hmin y (List.mem_cons_of_mem _ hy)
        · rw [List.find?_cons] at hfind ⊢
          cases hpx :
              decide (f x ≤ f (rest.foldl (fun best a => if f a < f best then a else best) x)) with
          | true =>
              rw [hpx] at hfind
              exact hfind
          | false =>
              rw [hpx] at hfind
              have hgx : ¬ f x ≤ f (rest.foldl (fun best a => if f a < f best then a else best) x) :=
                of_decide_eq_false hpx
              have hglt : f (rest.foldl (fun best a => if f a < f best then a else best) x) < f a := by
                have h1 : f (rest.foldl (fun best a => if f a < f best then a else best) x) ≤ f x :=
                  hmin x (List.mem_cons_self _ _)
                omega
              have hpa :
                  decide (f a ≤ f (rest.foldl (fun best a => if f a < f best then a else best) x)) = false :=
                decide_eq_false (Nat.not_le.mpr hglt)
              rw [List.find?_cons, hpa]
              exact hfind

theorem pyMinKey_spec (f : Int → Nat) (l : List Int) (h : l ≠ []) :
    ∃ a, pyMinKey f l = some a ∧ a ∈ l ∧ (∀ b ∈ l, f a ≤ f b) ∧
      l.find? (fun b => decide (f b ≤ f a)) = some a := by
  match l, h with
  | x :: xs, _ =>
      obtain ⟨hmem, hmin, hfind⟩ := foldMin_spec f xs x
      exact ⟨_, rfl, hmem, hmin, hfind⟩

/-! ## Weight-to-URL map: last block wins -/

theorem buildWUM_filterMap (blocks : List String) :
    ∀ m : List (Int × String),
      blocks.foldl
          (fun m b =>
            match blockEntry b with
            | some wu => dinsert m wu.1 wu.2
            | none => m)
          m =
        (blocks.filterMap blockEntry).foldl (fun m e => dinsert m e.1 e.2) m := by
  induction blocks with
  | nil => intro m; simp
  | cons b bs ih =>
      intro m
      cases hb : blockEntry b with
      | none => simp [List.filterMap_cons, hb, ih]
      | some wu => simp [List.filterMap_cons, hb, ih]

theorem dget?_foldl_dinsert (es : List (Int × String)) :
    ∀ (m0 : List (Int × String)) (w : Int),
      dget? (es.foldl (fun m e => dinsert m e.1 e.2) m0) w =
        match es.reverse.find? (fun e => decide (e.1 = w)) with
        | some e => some e.2
        | none => dget? m0 w := by
  induction es with
  | nil => intro m0 w; simp
  | cons e rest ih =>
      intro m0 w
      rw [List.foldl_cons, ih, List.reverse_cons, List.find?_append]
      cases hr : rest.reverse.find? (fun e => decide (e.1 = w)) with
      | some e2 => simp [Option.or]
      | none =>
          by_cases hw : e.1 = w
          · simp [List.find?, hw, Option.or, dget?_dinsert]
          · simp [List.find?, hw, Option.or, dget?_dinsert]

/-- Claim C10: when two or more style-rule blocks of the style sheet
declare the same integer font-weight, the weight-to-URL mapping built at
source lines 55-71 holds, for each weight, the URL of the last block (in
document order) that yielded that weight: the lookup equals the first
hit of a backwards scan over the extracted (weight, URL) entries, so
later blocks silently overwrite earlier ones. -/
theorem duplicate_weight_last_block_wins (blocks : List String) (w : Int) :
    dget? (buildWeightUrlMap blocks) w =
      ((blocks.filterMap blockEntry).reverse.find?
          (fun e => decide (e.1 = w))).map Prod.snd := by
  unfold buildWeightUrlMap
  rw [buildWUM_filterMap blocks [], dget?_foldl_dinsert]
  cases hf : (blocks.filterMap blockEntry).reverse.find? (fun e => decide (e.1 = w)) with
  | some e => simp
  | none => simp [dget?]

/-- Claim C8 (code bug exhibit is not needed: this is the error path):
when the style-sheet request raises (timeout, network failure, or the
non-2xx branch of raise_for_status), `download_google_font` returns the
failure signal `none` with the logged diagnostic of source line 133, no
asset download happens and the filesystem is untouched; the exception is
absorbed by the handler of lines 132-134 and nothing propagates. -/
theorem css_failure_returns_none (fam : String) (weights : List Int)
    (dl : String → Bool) (fs0 : List String) (e : String) :
    download_google_font fam weights (.error e) dl fs0 =
      ⟨none, fs0, [],
       ["⚠ Error downloading Google Font \x27" ++ fam ++ "\x27: " ++ e]⟩ :=
  rfl

/-- Claim C3 is false on the code (code bug): the URL regex of source
line 69 takes the leftmost URL of either format, not the woff2 URL, even
though the comment on line 68 (and the spec) promise woff2 preference.
On a block that carries a ttf URL before a woff2 URL the parser extracts
the ttf URL; with the order reversed it extracts the woff2 URL. -/
theorem url_extraction_is_leftmost_not_woff2 :
    extract_url
        "font-weight: 400; src: url(https://e.com/a.ttf) format(truetype), url(https://e.com/a.woff2) format(woff2);" =
      some "https://e.com/a.ttf" ∧
    extract_url
        "font-weight: 400; src: url(https://e.com/a.woff2) format(woff2), url(https://e.com/a.ttf) format(truetype);" =
      some "https://e.com/a.woff2" := by
  constructor
  · decide
  · decide

theorem fetchAsset_logs (dl : String → Bool) (fam key u : String)
    (ff : List (String × String)) (fs : List String) (ls : List String) :
    (fetchAsset dl fam key u ff fs ls).logs = ls := by
  simp only [fetchAsset]
  split
  · rfl
  · split <;> rfl

theorem dlStep_logs (fam : String) (dl : String → Bool)
    (wum : List (Int × String)) (w : Int) (ff : List (String × String))
    (fs : List String) :
    (dlStep fam dl wum w ff fs).logs = (resolveStep wum w).2 := by
  simp only [dlStep]
  cases hu : (resolveStep wum w).1 with
  | none => simp [hu]
  | some u =>
      by_cases hue : u.isEmpty
      · simp [hu, hue]
      · simp [hu, hue, fetchAsset_logs]

/-- Claim C2: when a requested weight `w` is absent from the non-empty
weight-to-URL mapping, the substitution of source lines 84-92 picks the
element of the key set minimizing the absolute distance to `w`; ties go
to whichever element the minimizing scan (Python `min`) returns first,
i.e. the earliest key in iteration order attaining the minimum; and the
substitution only emits the informational notice of lines 90-92 — the
per-weight step proceeds normally, its log being exactly that notice. -/
theorem closest_weight_minimizes (wum : List (Int × String)) (w : Int)
    (hne : wum ≠ []) (hni : w ∉ wum.map Prod.fst) :
    ∃ a, pyMinKey (fun x => (x - w).natAbs) (wum.map Prod.fst) = some a ∧
      a ∈ wum.map Prod.fst ∧
      (∀ b ∈ wum.map Prod.fst, (a - w).natAbs ≤ (b - w).natAbs) ∧
      (wum.map Prod.fst).find?
          (fun b => decide ((b - w).natAbs ≤ (a - w).natAbs)) = some a ∧
      (∀ (fam : String) (dl : String → Bool) (ff : List (String × String))
          (fs : List String),
        (dlStep fam dl wum w ff fs).logs =
          ["  Using weight " ++ toString a ++ " for " ++
           (dget? weight_map w).getD "regular" ++ " (requested " ++
           toString w ++ " not available)"]) := by
  have hmapne : wum.map Prod.fst ≠ [] := by
    simpa [List.map_eq_nil_iff] using hne
  obtain ⟨a, ha, hmem, hmin, hfind⟩ :=
    pyMinKey_spec (fun x => (x - w).natAbs) (wum.map Prod.fst) hmapne
  refine ⟨a, ha, hmem, hmin, hfind, ?_⟩
  intro fam dl ff fs
  have hget : dget? wum w = none := dget?_eq_none_of_not_key hni
  have hempty : wum.isEmpty = false := by
    cases wum with
    | nil => exact absurd rfl hne
    | cons kv rest => rfl
  rw [dlStep_logs]
  unfold resolveStep
  rw [hget, ha]
  simp [pyTruthyStr, hempty]

/-- Concrete instantiation of the closest-weight theorem: available
weights 400 and 700, requested weight 300 (the spec's own example);
weight 400 is chosen and the step records only the informational
notice. -/
theorem closest_weight_minimizes_witness :
    pyMinKey (fun x => (x - 300).natAbs)
        ([((400 : Int), "u4"), (700, "u7")].map Prod.fst) = some 400 ∧
    (dlStep "X" (fun _ => true) [((400 : Int), "u4"), (700, "u7")] 300 [] []).logs =
      ["  Using weight 400 for light (requested 300 not available)"] := by
  obtain ⟨a, ha, hmem, hmin, hfind, hlog⟩ :=
    closest_weight_minimizes [(400, "u4"), (700, "u7")] 300 (by decide) (by decide)
  have hcomp : pyMinKey (fun x => (x - 300).natAbs)
      ([((400 : Int), "u4"), (700, "u7")].map Prod.fst) = some 400 := by decide
  have ha400 : a = 400 := by
    rw [ha] at hcomp
    injection hcomp with h
  subst ha400
  refine ⟨ha, ?_⟩
  rw [hlog "X" (fun _ => true) [] []]
  decide

/-! ## Directory scan: role assignment (claim C6) -/

theorem assignWeights_eq (cands : List FileEntry) :
    assignWeights cands =
      weight_patterns.filterMap
        (fun rp => (cands.find? (roleMatches rp.2)).map (fun c => (rp.1, c.path))) := by
  unfold assignWeights weight_patterns
  cases hb : cands.find? (roleMatches boldPatterns) with
  | none =>
      cases hr : cands.find? (roleMatches regularPatterns) with
      | none =>
          cases hl : cands.find? (roleMatches lightPatterns) with
          | none => simp [hb, hr, hl, List.filterMap]
          | some cl => simp [hb, hr, hl, List.filterMap, dinsert]
      | some cr =>
          cases hl : cands.find? (roleMatches lightPatterns) with
          | none => simp [hb, hr, hl, List.filterMap, dinsert]
          | some cl => simp [hb, hr, hl, List.filterMap, dinsert]
  | some cb =>
      cases hr : cands.find? (roleMatches regularPatterns) with
      | none =>
          cases hl : cands.find? (roleMatches lightPatterns) with
          | none => simp [hb, hr, hl, List.filterMap, dinsert]
          | some cl => simp [hb, hr, hl, List.filterMap, dinsert]
      | some cr =>
          cases hl : cands.find? (roleMatches lightPatterns) with
          | none => simp [hb, hr, hl, List.filterMap, dinsert]
          | some cl => simp [hb, hr, hl, List.filterMap, dinsert]

theorem dget?_assignWeights (cands : List FileEntry) :
    dget? (assignWeights cands) "bold" =
        (cands.find? (roleMatches boldPatterns)).map (fun c => c.path) ∧
    dget? (assignWeights cands) "regular" =
        (cands.find? (roleMatches regularPatterns)).map (fun c => c.path) ∧
    dget? (assignWeights cands) "light" =
        (cands.find? (roleMatches lightPatterns)).map (fun c => c.path) := by
  rw [assignWeights_eq]
  unfold weight_patterns
  cases hb : cands.find? (roleMatches boldPatterns) <;>
    cases hr : cands.find? (roleMatches regularPatterns) <;>
    cases hl : cands.find? (roleMatches lightPatterns) <;>
    simp [hb, hr, hl, List.filterMap, dget?]

/-- Claim C6: in the directory scan of source lines 225-230 the roles
are evaluated in the fixed dict order bold, regular, light; each role is
assigned the first candidate (in enumeration order) whose lowercased
stem matches one of that role's patterns; the candidate pool passed to
every role is the same full list, so a candidate claimed by an earlier
role stays available to later ones, and a file matching several roles'
patterns is claimed first by whichever role comes earlier in that fixed
order (it heads the resulting assignment list). -/
theorem directory_roles_first_match (cands : List FileEntry) :
    assignWeights cands =
      [("bold", boldPatterns), ("regular", regularPatterns),
       ("light", lightPatterns)].filterMap
        (fun rp => (cands.find? (roleMatches rp.2)).map (fun c => (rp.1, c.path))) ∧
    dget? (assignWeights cands) "bold" =
        (cands.find? (roleMatches boldPatterns)).map (fun c => c.path) ∧
    dget? (assignWeights cands) "regular" =
        (cands.find? (roleMatches regularPatterns)).map (fun c => c.path) ∧
    dget? (assignWeights cands) "light" =
        (cands.find? (roleMatches lightPatterns)).map (fun c => c.path) :=
  ⟨assignWeights_eq cands, dget?_assignWeights cands⟩

/-! ## Extension matching (claim C9) -/

theorem contains_of_mem {l : List String} {a : String} (h : a ∈ l) :
    l.contains a = true := by
  simp [List.contains, List.elem_iff, h]

/-- Claim C9: the extension checks of source lines 173 and 196 compare
the lowercased suffix against the supported set, so a path whose
extension differs from a supported one only in letter case is accepted
in the single-file case and kept among the directory candidates exactly
as its lowercase form would be. -/
theorem extension_match_case_insensitive :
    (∀ (fpath : String) (entries : List FileEntry),
      pyLower (pySuffix (lastComp fpath)) ∈ SUPPORTED_EXTS →
      load_fonts_from_path fpath PathKind.isfile entries =
        some [("bold", fpath), ("regular", fpath), ("light", fpath)]) ∧
    (∀ (entries : List FileEntry) (e : FileEntry),
      e ∈ entries → e.isFile = true →
      pyLower (pySuffix e.name) ∈ SUPPORTED_EXTS →
      e ∈ fontCandidates entries) := by
  constructor
  · intro fpath entries h
    unfold load_fonts_from_path
    rw [contains_of_mem h]
    simp
  · intro entries e hmem hfile hext
    unfold fontCandidates
    exact List.mem_filter.mpr ⟨hmem, by simp [hfile, hext]⟩

/-- Concrete case-variant extensions: a single file named `Font.TTF`
is accepted, and an entry named `Deco.WOFF2` survives the candidate
filter. -/
theorem extension_match_case_insensitive_witness :
    load_fonts_from_path "/tmp/Font.TTF" PathKind.isfile [] =
      some [("bold", "/tmp/Font.TTF"), ("regular", "/tmp/Font.TTF"),
            ("light", "/tmp/Font.TTF")] ∧
    (⟨"Deco.WOFF2", "/d/Deco.WOFF2", true⟩ : FileEntry) ∈
      fontCandidates [⟨"Deco.WOFF2", "/d/Deco.WOFF2", true⟩] :=
  ⟨extension_match_case_insensitive.1 "/tmp/Font.TTF" [] (by decide),
   extension_match_case_insensitive.2 [⟨"Deco.WOFF2", "/d/Deco.WOFF2", true⟩]
     ⟨"Deco.WOFF2", "/d/Deco.WOFF2", true⟩ (by simp) rfl (by decide)⟩

/-! ## Priority chain (claims C4, C5) -/

/-- Claim C4: when a family other than the bundled default is given and
the remote fetch succeeds, `load_fonts` returns that result immediately
(source lines 283-289); the local path resolver is never invoked, no
matter what local path argument or resolver behaviour is supplied. -/
theorem remote_success_short_circuits (s : String) (fpathArg : Option String)
    (fetch resolveLocal : String → Option (List (String × String)))
    (pexists : String → Bool) (m : List (String × String))
    (hs : s ≠ "") (hrob : pyLower s ≠ "roboto") (hf : fetch s = some m) :
    load_fonts (some s) fpathArg fetch resolveLocal pexists =
      ⟨some m, true, false⟩ := by
  unfold load_fonts
  have h1 : s.isEmpty = false := by
    rcases hb : s.isEmpty with _ | _
    · rfl
    · exact absurd ((String.isEmpty_iff s).mp hb) hs
  have h2 : (pyLower s == "roboto") = false := beq_eq_false_iff_ne.mpr hrob
  simp [h1, h2, hf]

/-- Concrete short-circuit: valid family, valid-looking local path, a
succeeding local resolver — the remote result is returned and the local
resolver is not called. -/
theorem remote_success_short_circuits_witness :
    load_fonts (some "Open Sans") (some "/fonts/dir")
        (fun _ => some [("light", "L"), ("regular", "R"), ("bold", "B")])
        (fun _ => some [("bold", "X")]) (fun _ => false) =
      ⟨some [("light", "L"), ("regular", "R"), ("bold", "B")], true, false⟩ :=
  remote_success_short_circuits "Open Sans" (some "/fonts/dir") _ _ _ _
    (by decide) (by decide) rfl

theorem loadStage23_result (fpathArg : Option String)
    (resolveLocal : String → Option (List (String × String)))
    (pexists : String → Bool) (b : Bool)
    (h2 : ∀ p, fpathArg = some p → (!p.isEmpty) = true → resolveLocal p = none) :
    (loadStage23 fpathArg resolveLocal pexists b).result = loadDefault pexists := by
  unfold loadStage23
  cases fpathArg with
  | none => rfl
  | some p =>
      by_cases hp : p.isEmpty
      · simp [hp]
      · have hres := h2 p rfl (by simp [hp])
        simp [hp, hres]

/-- Claim C5: when both earlier stages fail to produce a result,
`load_fonts` reaches the bundled-default stage (source lines 300-312),
whose outcome is the full three-path Roboto set when all three default
files exist on disk and the failure signal `none` as soon as any one of
them is missing — never a partial set. -/
theorem default_stage_all_or_nothing (family fpathArg : Option String)
    (fetch resolveLocal : String → Option (List (String × String)))
    (pexists : String → Bool)
    (h1 : ∀ s, family = some s →
      (!s.isEmpty && !(pyLower s == "roboto")) = true → fetch s = none)
    (h2 : ∀ p, fpathArg = some p → (!p.isEmpty) = true → resolveLocal p = none) :
    (load_fonts family fpathArg fetch resolveLocal pexists).result =
      loadDefault pexists ∧
    loadDefault pexists =
      (if pexists "fonts/Roboto-Bold.ttf" && pexists "fonts/Roboto-Regular.ttf" &&
          pexists "fonts/Roboto-Light.ttf"
       then some defaultFonts else none) := by
  constructor
  · unfold load_fonts
    cases family with
    | none => exact loadStage23_result fpathArg resolveLocal pexists false h2
    | some s =>
        by_cases hcond : (!s.isEmpty && !(pyLower s == "roboto")) = true
        · have hfetch := h1 s rfl hcond
          simp only [hcond, if_true, hfetch]
          exact loadStage23_result fpathArg resolveLocal pexists true h2
        · simp only [Bool.not_eq_true] at hcond
          simp only [hcond, Bool.false_eq_true, if_false]
          exact loadStage23_result fpathArg resolveLocal pexists false h2
  · by_cases hb : pexists "fonts/Roboto-Bold.ttf" <;>
      by_cases hr : pexists "fonts/Roboto-Regular.ttf" <;>
      by_cases hl : pexists "fonts/Roboto-Light.ttf" <;>
      simp [loadDefault, checkPaths, defaultFonts, hb, hr, hl]

/-- Concrete default stage: no family, no path, nothing on disk — the
overall result is the failure signal. -/
theorem default_stage_all_or_nothing_witness :
    (load_fonts none none (fun _ => none) (fun _ => none)
        (fun _ => false)).result = none := by
  obtain ⟨ha, hb⟩ :=
    default_stage_all_or_nothing none none (fun _ => none) (fun _ => none)
      (fun _ => false) (fun s hs _ => Option.noConfusion hs)
      (fun p hp _ => Option.noConfusion hp)
  rw [ha, hb]
  simp

/-! ## FontSet completeness machinery (claim C1) -/

theorem append_ne_empty_left (s t : String) (h : s ≠ "") : s ++ t ≠ "" := by
  intro hc
  apply h
  have hl := congrArg String.length hc
  rw [String.length_append] at hl
  have hs0 : s.length = 0 := by
    have : s.length + t.length = 0 := by simpa using hl
    omega
  cases s with
  | mk data =>
      cases data with
      | nil => rfl
      | cons c cs => simp [String.length] at hs0

theorem cachePath_ne_empty (fam key u : String) : cachePath fam key u ≠ "" := by
  unfold cachePath
  apply append_ne_empty_left
  apply append_ne_empty_left
  apply append_ne_empty_left
  apply append_ne_empty_left
  apply append_ne_empty_left
  decide

theorem dmem_dinsert_self {α β : Type} [DecidableEq α]
    (m : List (α × β)) (k : α) (v : β) : dmem (dinsert m k v) k = true := by
  simp [dmem, dget?_dinsert]

theorem dmem_dinsert_mono {α β : Type} [DecidableEq α]
    {m : List (α × β)} {k2 : α} (k : α) (v : β) (h : dmem m k2 = true) :
    dmem (dinsert m k v) k2 = true := by
  simp only [dmem, dget?_dinsert]
  by_cases hk : k = k2
  · simp [hk]
  · simpa [hk] using h

theorem exists_good_of_dmem {m : List (String × String)} {k : String}
    (h : dmem m k = true) (hg : ∀ kv ∈ m, kv.2 ≠ "") :
    ∃ v, dget? m k = some v ∧ v ≠ "" := by
  cases hv : dget? m k with
  | none => rw [dmem, hv] at h; simp at h
  | some v => exact ⟨v, rfl, hg (k, v) (dget?_some_mem hv)⟩

theorem goodVals_dinsert {ff : List (String × String)} {k v : String}
    (hv : v ≠ "") (h : ∀ kv ∈ ff, kv.2 ≠ "") :
    ∀ kv ∈ dinsert ff k v, kv.2 ≠ "" := by
  intro kv hkv
  rcases mem_dinsert hkv with h2 | h2
  · rw [h2]; exact hv
  · exact h kv h2

theorem fetchAsset_ff (dl : String → Bool) (fam key u : String)
    (ff : List (String × String)) (fs : List String) (ls : List String) :
    (fetchAsset dl fam key u ff fs ls).ff = ff ∨
    (fetchAsset dl fam key u ff fs ls).ff =
      dinsert ff key (cachePath fam key u) := by
  simp only [fetchAsset]
  split
  · right; rfl
  · split
    · right; rfl
    · left; rfl

theorem dlStep_ff (fam : String) (dl : String → Bool)
    (wum : List (Int × String)) (w : Int) (ff : List (String × String))
    (fs : List String) :
    (dlStep fam dl wum w ff fs).ff = ff ∨
    ∃ key p, p ≠ "" ∧ (dlStep fam dl wum w ff fs).ff = dinsert ff key p := by
  simp only [dlStep]
  cases hu : (resolveStep wum w).1 with
  | none => left; simp [hu]
  | some u =>
      by_cases hue : u.isEmpty
      · left; simp [hu, hue]
      · rcases fetchAsset_ff dl fam ((dget? weight_map w).getD "regular") u ff fs
            (resolveStep wum w).2 with he | he
        · left; simp only [hu, hue, Bool.not_false, if_true]; exact he
        · right
          refine ⟨(dget? weight_map w).getD "regular", cachePath fam ((dget? weight_map w).getD "regular") u,
            cachePath_ne_empty fam _ u, ?_⟩
          simp only [hu, hue, Bool.not_false, if_true]
          exact he

theorem dlLoop_ff_goodVals (fam : String) (dl : String → Bool)
    (wum : List (Int × String)) :
    ∀ (ws : List Int) (ff : List (String × String)) (fs : List String),
      (∀ kv ∈ ff, kv.2 ≠ "") →
      ∀ kv ∈ (dlLoop fam dl wum ws ff fs).ff, kv.2 ≠ "" := by
  intro ws
  induction ws with
  | nil => intro ff fs h; simpa [dlLoop] using h
  | cons w ws ih =>
      intro ff fs h kv hkv
      simp only [dlLoop] at hkv
      refine ih _ _ ?_ kv hkv
      rcases dlStep_ff fam dl wum w ff fs with he | ⟨key, p, hp, he⟩
      · rw [he]; exact h
      · rw [he]; exact goodVals_dinsert hp h

theorem promoteRegular_cases (ff : List (String × String)) :
    promoteRegular ff = ff ∨
    ∃ k v, (k, v) ∈ ff ∧ promoteRegular ff = dinsert ff "regular" v := by
  cases ff with
  | nil => left; rfl
  | cons kv rest =>
      obtain ⟨k, v⟩ := kv
      by_cases h : dmem ((k, v) :: rest) "regular"
      · left; simp [promoteRegular, h]
      · right; exact ⟨k, v, by simp, by simp [promoteRegular, h]⟩

theorem promoteRegular_regular {ff : List (String × String)} (h : ff ≠ []) :
    dmem (promoteRegular ff) "regular" = true := by
  cases ff with
  | nil => exact absurd rfl h
  | cons kv rest =>
      obtain ⟨k, v⟩ := kv
      by_cases h2 : dmem ((k, v) :: rest) "regular"
      · simpa [promoteRegular, h2] using h2
      · simp [promoteRegular, h2, dmem_dinsert_self]

theorem promoteRegular_vals {ff : List (String × String)} {kv : String × String}
    (h : kv ∈ promoteRegular ff) : ∃ kv0 ∈ ff, kv.2 = kv0.2 := by
  rcases promoteRegular_cases ff with he | ⟨k, v, hkv0, he⟩
  · rw [he] at h; exact ⟨kv, h, rfl⟩
  · rw [he] at h
    rcases mem_dinsert h with h2 | h2
    · exact ⟨(k, v), hkv0, by rw [h2]⟩
    · exact ⟨kv, h2, rfl⟩

theorem dupRegularTo_cases (ff : List (String × String)) (k : String) :
    dupRegularTo ff k = ff ∨
    ∃ v, dget? ff "regular" = some v ∧ dupRegularTo ff k = dinsert ff k v := by
  unfold dupRegularTo
  cases hv : dget? ff "regular" with
  | none => left; rfl
  | some v =>
      by_cases hk : dmem ff k
      · left; simp [hk]
      · right; exact ⟨v, rfl, by simp [hk]⟩

theorem dupRegularTo_self {ff : List (String × String)} {k : String}
    (hreg : dmem ff "regular" = true) : dmem (dupRegularTo ff k) k = true := by
  unfold dupRegularTo
  cases hv : dget? ff "regular" with
  | none => rw [dmem, hv] at hreg; simp at hreg
  | some v =>
      by_cases hk : dmem ff k
      · simpa [hk] using hk
      · simp [hk, dmem_dinsert_self]

theorem dupRegularTo_mono {ff : List (String × String)} {k k2 : String}
    (h : dmem ff k2 = true) : dmem (dupRegularTo ff k) k2 = true := by
  rcases dupRegularTo_cases ff k with he | ⟨v, hv, he⟩
  · rw [he]; exact h
  · rw [he]; exact dmem_dinsert_mono k v h

theorem dupRegularTo_vals {ff : List (String × String)} {k : String}
    {kv : String × String} (h : kv ∈ dupRegularTo ff k) :
    ∃ kv0 ∈ ff, kv.2 = kv0.2 := by
  rcases dupRegularTo_cases ff k with he | ⟨v, hv, he⟩
  · rw [he] at h; exact ⟨kv, h, rfl⟩
  · rw [he] at h
    rcases mem_dinsert h with h2 | h2
    · exact ⟨("regular", v), dget?_some_mem hv, by rw [h2]⟩
    · exact ⟨kv, h2, rfl⟩

theorem fills_good (ff : List (String × String))
    (hg : ∀ kv ∈ ff, kv.2 ≠ "") (m : List (String × String))
    (hm : (if (dupRegularTo (dupRegularTo (promoteRegular ff) "bold") "light").isEmpty
           then none
           else some (dupRegularTo (dupRegularTo (promoteRegular ff) "bold") "light")) =
        some m) :
    (∃ v, dget? m "light" = some v ∧ v ≠ "") ∧
    (∃ v, dget? m "regular" = some v ∧ v ≠ "") ∧
    (∃ v, dget? m "bold" = some v ∧ v ≠ "") := by
  by_cases hemp : (dupRegularTo (dupRegularTo (promoteRegular ff) "bold") "light").isEmpty
  · rw [if_pos hemp] at hm; exact absurd hm (by simp)
  · rw [if_neg hemp] at hm
    have hm2 : dupRegularTo (dupRegularTo (promoteRegular ff) "bold") "light" = m := by
      injection hm
    have hffne : ff ≠ [] := by
      intro h0
      subst h0
      exact hemp rfl
    have hreg : dmem (promoteRegular ff) "regular" = true :=
      promoteRegular_regular hffne
    have hb : dmem (dupRegularTo (promoteRegular ff) "bold") "bold" = true :=
      dupRegularTo_self hreg
    have hbr : dmem (dupRegularTo (promoteRegular ff) "bold") "regular" = true :=
      dupRegularTo_mono hreg
    have h3l : dmem m "light" = true := hm2 ▸ dupRegularTo_self hbr
    have h3r : dmem m "regular" = true := hm2 ▸ dupRegularTo_mono hbr
    have h3b : dmem m "bold" = true := hm2 ▸ dupRegularTo_mono hb
    have hgood : ∀ kv ∈ m, kv.2 ≠ "" := by
      intro kv hkv
      rw [← hm2] at hkv
      obtain ⟨kv1, hkv1, he1⟩ := dupRegularTo_vals hkv
      obtain ⟨kv2, hkv2, he2⟩ := dupRegularTo_vals hkv1
      obtain ⟨kv3, hkv3, he3⟩ := promoteRegular_vals hkv2
      rw [he1, he2, he3]
      exact hg kv3 hkv3
    exact ⟨exists_good_of_dmem h3l hgood, exists_good_of_dmem h3r hgood,
      exists_good_of_dmem h3b hgood⟩

theorem dgf_result_good (fam : String) (weights : List Int)
    (cssR : Except String String) (dl : String → Bool) (fs0 : List String)
    (m : List (String × String))
    (hm : (download_google_font fam weights cssR dl fs0).result = some m) :
    (∃ v, dget? m "light" = some v ∧ v ≠ "") ∧
    (∃ v, dget? m "regular" = some v ∧ v ≠ "") ∧
    (∃ v, dget? m "bold" = some v ∧ v ≠ "") := by
  cases cssR with
  | error e => simp [download_google_font] at hm
  | ok css =>
      refine fills_good
        ((dlLoop fam dl (buildWeightUrlMap ((splitFontFace css).drop 1))
            weights [] fs0).ff)
        (dlLoop_ff_goodVals fam dl _ weights [] fs0
          (by intro kv hkv; simp at hkv)) m ?_
      simp only [download_google_font] at hm
      exact hm

theorem condInsert_self (ff : List (String × String)) (k v : String) :
    dmem (if dmem ff k then ff else dinsert ff k v) k = true := by
  by_cases hd : dmem ff k
  · rw [if_pos hd]; exact hd
  · rw [if_neg hd]; exact dmem_dinsert_self ff k v

theorem condInsert_mono {ff : List (String × String)} {k2 : String}
    (k v : String) (h : dmem ff k2 = true) :
    dmem (if dmem ff k then ff else dinsert ff k v) k2 = true := by
  by_cases hd : dmem ff k
  · rw [if_pos hd]; exact h
  · rw [if_neg hd]; exact dmem_dinsert_mono k v h

theorem condInsert_mem {ff : List (String × String)} {k v : String}
    {kv : String × String}
    (h : kv ∈ (if dmem ff k then ff else dinsert ff k v)) :
    kv ∈ ff ∨ kv.2 = v := by
  by_cases hd : dmem ff k
  · rw [if_pos hd] at h; exact Or.inl h
  · rw [if_neg hd] at h
    rcases mem_dinsert h with h2 | h2
    · right; rw [h2]
    · left; exact h2

theorem fillFromFirst_complete (c0 : FileEntry) (rest : List FileEntry)
    (ff0 : List (String × String)) :
    dmem (fillFromFirst (c0 :: rest) ff0) "bold" = true ∧
    dmem (fillFromFirst (c0 :: rest) ff0) "regular" = true ∧
    dmem (fillFromFirst (c0 :: rest) ff0) "light" = true ∧
    (∀ kv ∈ fillFromFirst (c0 :: rest) ff0, kv ∈ ff0 ∨ kv.2 = c0.path) := by
  by_cases hf0 : ff0.isEmpty
  · have h0 : ff0 = [] := by
      cases ff0 with
      | nil => rfl
      | cons kv r => simp at hf0
    subst h0
    refine ⟨by simp [fillFromFirst, dmem, dget?], by simp [fillFromFirst, dmem, dget?],
      by simp [fillFromFirst, dmem, dget?], ?_⟩
    intro kv hkv
    simp only [fillFromFirst] at hkv
    simp at hkv
    rcases hkv with h | h | h <;> (right; rw [h])
  · have hT : fillFromFirst (c0 :: rest) ff0 =
        (if dmem
            (if dmem (if dmem ff0 "regular" then ff0 else dinsert ff0 "regular" c0.path) "bold"
             then (if dmem ff0 "regular" then ff0 else dinsert ff0 "regular" c0.path)
             else dinsert (if dmem ff0 "regular" then ff0 else dinsert ff0 "regular" c0.path) "bold" c0.path)
            "light"
         then (if dmem (if dmem ff0 "regular" then ff0 else dinsert ff0 "regular" c0.path) "bold"
               then (if dmem ff0 "regular" then ff0 else dinsert ff0 "regular" c0.path)
               else dinsert (if dmem ff0 "regular" then ff0 else dinsert ff0 "regular" c0.path) "bold" c0.path)
         else dinsert
            (if dmem (if dmem ff0 "regular" then ff0 else dinsert ff0 "regular" c0.path) "bold"
             then (if dmem ff0 "regular" then ff0 else dinsert ff0 "regular" c0.path)
             else dinsert (if dmem ff0 "regular" then ff0 else dinsert ff0 "regular" c0.path) "bold" c0.path)
            "light" c0.path) := by
      simp [fillFromFirst, hf0]
    rw [hT]
    refine ⟨condInsert_mono _ _ (condInsert_self _ _ _),
      condInsert_mono _ _ (condInsert_mono _ _ (condInsert_self _ _ _)),
      condInsert_self _ _ _, ?_⟩
    intro kv hkv
    rcases condInsert_mem hkv with h1 | h1
    · rcases condInsert_mem h1 with h2 | h2
      · rcases condInsert_mem h2 with h3 | h3
        · exact Or.inl h3
        · exact Or.inr h3
      · exact Or.inr h2
    · exact Or.inr h1

theorem assignWeights_vals {cands : List FileEntry} {kv : String × String}
    (h : kv ∈ assignWeights cands) : ∃ c ∈ cands, kv.2 = c.path := by
  rw [assignWeights_eq] at h
  obtain ⟨rp, hrp, hmap⟩ := List.mem_filterMap.mp h
  cases hfind : cands.find? (roleMatches rp.2) with
  | none => rw [hfind] at hmap; simp at hmap
  | some c =>
      rw [hfind] at hmap
      simp at hmap
      exact ⟨c, List.mem_of_find?_eq_some hfind, by rw [← hmap]⟩

theorem lffp_result_good (fpath : String) (kind : PathKind)
    (entries : List FileEntry) (m : List (String × String))
    (hf : fpath ≠ "") (he : ∀ e ∈ entries, e.path ≠ "")
    (hm : load_fonts_from_path fpath kind entries = some m) :
    (∃ v, dget? m "light" = some v ∧ v ≠ "") ∧
    (∃ v, dget? m "regular" = some v ∧ v ≠ "") ∧
    (∃ v, dget? m "bold" = some v ∧ v ≠ "") := by
  cases kind with
  | missing => simp [load_fonts_from_path] at hm
  | other => simp [load_fonts_from_path] at hm
  | isfile =>
      simp only [load_fonts_from_path] at hm
      split at hm
      · have hm2 : [("bold", fpath), ("regular", fpath), ("light", fpath)] = m := by
          injection hm
        rw [← hm2]
        exact ⟨⟨fpath, by simp [dget?], hf⟩, ⟨fpath, by simp [dget?], hf⟩,
          ⟨fpath, by simp [dget?], hf⟩⟩
      · exact absurd hm (by simp)
  | isdir =>
      simp only [load_fonts_from_path] at hm
      split at hm
      · exact absurd hm (by simp)
      · split at hm
        · exact absurd hm (by simp)
        · rename_i hcne hffne
          have hm2 : fillFromFirst (fontCandidates entries)
              (assignWeights (fontCandidates entries)) = m := by
            injection hm
          cases hcands : fontCandidates entries with
          | nil => rw [hcands] at hcne; exact absurd rfl hcne
          | cons c0 crest =>
              rw [hcands] at hm2
              obtain ⟨hb, hr, hl, hmemv⟩ :=
                fillFromFirst_complete c0 crest (assignWeights (c0 :: crest))
              have hsub : ∀ c, c ∈ c0 :: crest → c ∈ entries := by
                intro c hc
                rw [← hcands] at hc
                exact List.mem_of_mem_filter hc
              have hc0path : c0.path ≠ "" :=
                he c0 (hsub c0 (List.mem_cons_self _ _))
              have hgood : ∀ kv ∈ m, kv.2 ≠ "" := by
                intro kv hkv
                rw [← hm2] at hkv
                rcases hmemv kv hkv with h1 | h1
                · obtain ⟨c, hc, hpath⟩ := assignWeights_vals h1
                  rw [hpath]
                  exact he c (hsub c hc)
                · rw [h1]; exact hc0path
              exact ⟨exists_good_of_dmem (hm2 ▸ hl) hgood,
                exists_good_of_dmem (hm2 ▸ hr) hgood,
                exists_good_of_dmem (hm2 ▸ hb) hgood⟩

theorem loadDefault_good (pexists : String → Bool)
    (m : List (String × String)) (hm : loadDefault pexists = some m) :
    (∃ v, dget? m "light" = some v ∧ v ≠ "") ∧
    (∃ v, dget? m "regular" = some v ∧ v ≠ "") ∧
    (∃ v, dget? m "bold" = some v ∧ v ≠ "") := by
  unfold loadDefault at hm
  split at hm
  · have hm2 : defaultFonts = m := by injection hm
    rw [← hm2]
    exact ⟨⟨"fonts/Roboto-Light.ttf", by simp [defaultFonts, dget?], by decide⟩,
      ⟨"fonts/Roboto-Regular.ttf", by simp [defaultFonts, dget?], by decide⟩,
      ⟨"fonts/Roboto-Bold.ttf", by simp [defaultFonts, dget?], by decide⟩⟩
  · exact absurd hm (by simp)

theorem loadStage23_good (fpathArg : Option String) (kind : PathKind)
    (entries : List FileEntry) (pexists : String → Bool) (b : Bool)
    (m : List (String × String)) (he : ∀ e ∈ entries, e.path ≠ "")
    (hm : (loadStage23 fpathArg (fun p => load_fonts_from_path p kind entries)
        pexists b).result = some m) :
    (∃ v, dget? m "light" = some v ∧ v ≠ "") ∧
    (∃ v, dget? m "regular" = some v ∧ v ≠ "") ∧
    (∃ v, dget? m "bold" = some v ∧ v ≠ "") := by
  unfold loadStage23 at hm
  cases fpathArg with
  | none => exact loadDefault_good pexists m hm
  | some p =>
      by_cases hp : p.isEmpty
      · simp only [hp] at hm
        exact loadDefault_good pexists m hm
      · simp only [hp, Bool.not_false, if_true] at hm
        cases hl : load_fonts_from_path p kind entries with
        | none =>
            rw [hl] at hm
            exact loadDefault_good pexists m hm
        | some fonts =>
            rw [hl] at hm
            have hm2 : fonts = m := by injection hm
            have hpne : p ≠ "" := by
              intro h0
              rw [h0] at hp
              exact hp rfl
            exact lffp_result_good p kind entries m hpne he (hm2 ▸ hl)

theorem load_fonts_full_good (family fpathArg : Option String)
    (cssR : Except String String) (dl : String → Bool) (fs0 : List String)
    (kind : PathKind) (entries : List FileEntry) (pexists : String → Bool)
    (m : List (String × String)) (he : ∀ e ∈ entries, e.path ≠ "")
    (hm : (load_fonts_full family fpathArg cssR dl fs0 kind entries
        pexists).result = some m) :
    (∃ v, dget? m "light" = some v ∧ v ≠ "") ∧
    (∃ v, dget? m "regular" = some v ∧ v ≠ "") ∧
    (∃ v, dget? m "bold" = some v ∧ v ≠ "") := by
  unfold load_fonts_full load_fonts at hm
  cases family with
  | none => exact loadStage23_good fpathArg kind entries pexists false m he hm
  | some s =>
      dsimp only at hm
      by_cases hcond : (!s.isEmpty && !(pyLower s == "roboto")) = true
      · rw [if_pos hcond] at hm
        cases hfetch : (download_google_font s [300, 400, 700] cssR dl fs0).result with
        | some fonts =>
            rw [hfetch] at hm
            have hm2 : fonts = m := by injection hm
            exact dgf_result_good s [300, 400, 700] cssR dl fs0 m (hm2 ▸ hfetch)
        | none =>
            rw [hfetch] at hm
            exact loadStage23_good fpathArg kind entries pexists true m he hm
      · rw [if_neg hcond] at hm
        exact loadStage23_good fpathArg kind entries pexists false m he hm

/-- Claim C1: every successful return of `download_google_font`,
`load_fonts_from_path` or `load_fonts` (composed as in the source) is a
complete FontSet: the keys light, regular and bold are all present, each
bound to a non-empty path string; no partially populated mapping reaches
the caller.  For the local resolver the resolved argument path and the
listed entry paths are non-empty, as `Path.resolve()` guarantees. -/
theorem fontset_complete_on_success :
    (∀ (fam : String) (weights : List Int) (cssR : Except String String)
        (dl : String → Bool) (fs0 : List String) (m : List (String × String)),
      (download_google_font fam weights cssR dl fs0).result = some m →
      (∃ v, dget? m "light" = some v ∧ v ≠ "") ∧
      (∃ v, dget? m "regular" = some v ∧ v ≠ "") ∧
      (∃ v, dget? m "bold" = some v ∧ v ≠ "")) ∧
    (∀ (fpath : String) (kind : PathKind) (entries : List FileEntry)
        (m : List (String × String)),
      fpath ≠ "" → (∀ e ∈ entries, e.path ≠ "") →
      load_fonts_from_path fpath kind entries = some m →
      (∃ v, dget? m "light" = some v ∧ v ≠ "") ∧
      (∃ v, dget? m "regular" = some v ∧ v ≠ "") ∧
      (∃ v, dget? m "bold" = some v ∧ v ≠ "")) ∧
    (∀ (family fpathArg : Option String) (cssR : Except String String)
        (dl : String → Bool) (fs0 : List String) (kind : PathKind)
        (entries : List FileEntry) (pexists : String → Bool)
        (m : List (String × String)),
      (∀ e ∈ entries, e.path ≠ "") →
      (load_fonts_full family fpathArg cssR dl fs0 kind entries
          pexists).result = some m →
      (∃ v, dget? m "light" = some v ∧ v ≠ "") ∧
      (∃ v, dget? m "regular" = some v ∧ v ≠ "") ∧
      (∃ v, dget? m "bold" = some v ∧ v ≠ "")) :=
  ⟨fun fam weights cssR dl fs0 m hm =>
      dgf_result_good fam weights cssR dl fs0 m hm,
   fun fpath kind entries m hf he hm =>
      lffp_result_good fpath kind entries m hf he hm,
   fun family fpathArg cssR dl fs0 kind entries pexists m he hm =>
      load_fonts_full_good family fpathArg cssR dl fs0 kind entries pexists m he hm⟩

/-- Concrete full FontSet from the single-file local case. -/
theorem fontset_complete_on_success_witness :
    (∃ v, dget? [("bold", "/a/Font.ttf"), ("regular", "/a/Font.ttf"),
        ("light", "/a/Font.ttf")] "light" = some v ∧ v ≠ "") ∧
    (∃ v, dget? [("bold", "/a/Font.ttf"), ("regular", "/a/Font.ttf"),
        ("light", "/a/Font.ttf")] "regular" = some v ∧ v ≠ "") ∧
    (∃ v, dget? [("bold", "/a/Font.ttf"), ("regular", "/a/Font.ttf"),
        ("light", "/a/Font.ttf")] "bold" = some v ∧ v ≠ "") :=
  fontset_complete_on_success.2.1 "/a/Font.ttf" PathKind.isfile []
    [("bold", "/a/Font.ttf"), ("regular", "/a/Font.ttf"), ("light", "/a/Font.ttf")]
    (by decide) (by intro e he2; simp at he2) (by decide)

/-! ## Cache idempotence machinery (claim C7) -/

theorem mem_of_contains {l : List String} {a : String}
    (h : l.contains a = true) : a ∈ l := by
  simpa [List.contains, List.elem_iff] using h

theorem fetchAsset_fs_dls (dl : String → Bool) (fam key u : String)
    (ff : List (String × String)) (fs : List String) (ls : List String) :
    ((fetchAsset dl fam key u ff fs ls).fs = fs ∧
     (fetchAsset dl fam key u ff fs ls).dls = []) ∨
    (cachePath fam key u ∉ fs ∧
     (fetchAsset dl fam key u ff fs ls).fs = cachePath fam key u :: fs ∧
     (fetchAsset dl fam key u ff fs ls).dls = [(u, cachePath fam key u)]) := by
  simp only [fetchAsset]
  by_cases hc : cachePath fam key u ∈ fs
  · left; simp [hc]
  · by_cases hd : dl u
    · right
      refine ⟨hc, ?_, ?_⟩ <;> simp [hc, hd]
    · left; simp [hc, hd]

theorem dlStep_fs_dls (fam : String) (dl : String → Bool)
    (wum : List (Int × String)) (w : Int) (ff : List (String × String))
    (fs : List String) :
    ((dlStep fam dl wum w ff fs).fs = fs ∧
     (dlStep fam dl wum w ff fs).dls = []) ∨
    (∃ u p, p ∉ fs ∧ (dlStep fam dl wum w ff fs).fs = p :: fs ∧
       (dlStep fam dl wum w ff fs).dls = [(u, p)]) := by
  simp only [dlStep]
  cases hu : (resolveStep wum w).1 with
  | none => left; simp [hu]
  | some u =>
      by_cases hue : u.isEmpty
      · left; simp [hu, hue]
      · simp only [hu, hue, Bool.not_false, if_true]
        rcases fetchAsset_fs_dls dl fam ((dget? weight_map w).getD "regular") u ff fs
            (resolveStep wum w).2 with ⟨h1, h2⟩ | ⟨hnp, h1, h2⟩
        · left; exact ⟨h1, h2⟩
        · right; exact ⟨u, cachePath fam ((dget? weight_map w).getD "regular") u, hnp, h1, h2⟩

theorem dlLoop_fs_mono (fam : String) (dl : String → Bool)
    (wum : List (Int × String)) :
    ∀ (ws : List Int) (ff : List (String × String)) (fs : List String)
      (q : String), q ∈ fs → q ∈ (dlLoop fam dl wum ws ff fs).fs := by
  intro ws
  induction ws with
  | nil => intro ff fs q hq; simpa [dlLoop] using hq
  | cons w ws ih =>
      intro ff fs q hq
      simp only [dlLoop]
      apply ih
      rcases dlStep_fs_dls fam dl wum w ff fs with ⟨h1, _⟩ | ⟨u, p, _, h1, _⟩
      · rw [h1]; exact hq
      · rw [h1]; exact List.mem_cons_of_mem _ hq

theorem dlLoop_dls_nodup (fam : String) (dl : String → Bool)
    (wum : List (Int × String)) :
    ∀ (ws : List Int) (ff : List (String × String)) (fs : List String),
      ((dlLoop fam dl wum ws ff fs).dls.map Prod.snd).Nodup ∧
      ∀ q ∈ (dlLoop fam dl wum ws ff fs).dls.map Prod.snd, q ∉ fs := by
  intro ws
  induction ws with
  | nil => intro ff fs; simp [dlLoop]
  | cons w ws ih =>
      intro ff fs
      simp only [dlLoop]
      obtain ⟨hn, hm⟩ :=
        ih (dlStep fam dl wum w ff fs).ff (dlStep fam dl wum w ff fs).fs
      rcases dlStep_fs_dls fam dl wum w ff fs with ⟨h1, h2⟩ | ⟨u, p, hnp, h1, h2⟩
      · rw [h2]
        simp only [List.nil_append]
        refine ⟨hn, ?_⟩
        intro q hq
        have := hm q hq
        rw [h1] at this
        exact this
      · rw [h2]
        simp only [List.cons_append, List.nil_append, List.map_cons, List.nodup_cons]
        refine ⟨⟨?_, hn⟩, ?_⟩
        · intro hpin
          have hnot := hm p hpin
          rw [h1] at hnot
          exact hnot (List.mem_cons_self _ _)
        · intro q hq
          rcases List.mem_cons.mp hq with hq1 | hq2
          · rw [hq1]; exact hnp
          · intro hqfs
            have hnot := hm q hq2
            rw [h1] at hnot
            exact hnot (List.mem_cons_of_mem _ hqfs)

theorem fetchAsset_rerun (fam key u : String) (ff : List (String × String))
    (fs fs2 : List String) (ls : List String)
    (h : ∀ q ∈ (fetchAsset (fun _ => true) fam key u ff fs ls).fs, q ∈ fs2) :
    fetchAsset (fun _ => true) fam key u ff fs2 ls =
      ⟨(fetchAsset (fun _ => true) fam key u ff fs ls).ff, fs2, [], ls⟩ := by
  by_cases hc : cachePath fam key u ∈ fs
  · have hst : fetchAsset (fun _ => true) fam key u ff fs ls =
        ⟨dinsert ff key (cachePath fam key u), fs, [], ls⟩ := by
      simp [fetchAsset, hc]
    have hp2 : cachePath fam key u ∈ fs2 := by
      apply h
      rw [hst]
      exact hc
    rw [hst]
    simp [fetchAsset, hp2]
  · have hst : fetchAsset (fun _ => true) fam key u ff fs ls =
        ⟨dinsert ff key (cachePath fam key u),
         cachePath fam key u :: fs, [(u, cachePath fam key u)], ls⟩ := by
      simp [fetchAsset, hc]
    have hp2 : cachePath fam key u ∈ fs2 := by
      apply h
      rw [hst]
      exact List.mem_cons_self _ _
    rw [hst]
    simp [fetchAsset, hp2]

theorem dlStep_rerun (fam : String) (wum : List (Int × String)) (w : Int)
    (ff : List (String × String)) (fs fs2 : List String)
    (h : ∀ q ∈ (dlStep fam (fun _ => true) wum w ff fs).fs, q ∈ fs2) :
    dlStep fam (fun _ => true) wum w ff fs2 =
      ⟨(dlStep fam (fun _ => true) wum w ff fs).ff, fs2, [],
       (dlStep fam (fun _ => true) wum w ff fs).logs⟩ := by
  simp only [dlStep] at h ⊢
  cases hu : (resolveStep wum w).1 with
  | none => simp [hu]
  | some u =>
      by_cases hue : u.isEmpty
      · simp [hu, hue]
      · simp only [hu, hue, Bool.not_false, if_true] at h ⊢
        rw [fetchAsset_logs]
        exact fetchAsset_rerun fam _ u ff fs fs2 _ h

theorem dlLoop_rerun (fam : String) (wum : List (Int × String)) :
    ∀ (ws : List Int) (ff : List (String × String)) (fs : List String),
      dlLoop fam (fun _ => true) wum ws ff
          ((dlLoop fam (fun _ => true) wum ws ff fs).fs) =
        ⟨(dlLoop fam (fun _ => true) wum ws ff fs).ff,
         (dlLoop fam (fun _ => true) wum ws ff fs).fs, [],
         (dlLoop fam (fun _ => true) wum ws ff fs).logs⟩ := by
  intro ws
  induction ws with
  | nil => intro ff fs; simp [dlLoop]
  | cons w ws ih =>
      intro ff fs
      have hmono : ∀ q ∈ (dlStep fam (fun _ => true) wum w ff fs).fs,
          q ∈ (dlLoop fam (fun _ => true) wum ws
              (dlStep fam (fun _ => true) wum w ff fs).ff
              (dlStep fam (fun _ => true) wum w ff fs).fs).fs :=
        fun q hq => dlLoop_fs_mono fam _ wum ws _ _ q hq
      have hstep := dlStep_rerun fam wum w ff fs _ hmono
      simp only [dlLoop]
      rw [hstep]
      simp only []
      rw [ih (dlStep fam (fun _ => true) wum w ff fs).ff
          (dlStep fam (fun _ => true) wum w ff fs).fs]
      simp

theorem fetchAsset_ff_fs (dl : String → Bool) (fam key u : String)
    (ff : List (String × String)) (fs : List String) (ls : List String) :
    (fetchAsset dl fam key u ff fs ls).ff = ff ∨
    ((fetchAsset dl fam key u ff fs ls).ff =
        dinsert ff key (cachePath fam key u) ∧
      cachePath fam key u ∈ (fetchAsset dl fam key u ff fs ls).fs) := by
  simp only [fetchAsset]
  by_cases hc : cachePath fam key u ∈ fs
  · right
    refine ⟨by simp [hc], ?_⟩
    simpa [hc] using hc
  · by_cases hd : dl u
    · right
      refine ⟨by simp [hc, hd], ?_⟩
      simp [hc, hd]
    · left; simp [hc, hd]

theorem dlStep_ff_fs (fam : String) (dl : String → Bool)
    (wum : List (Int × String)) (w : Int) (ff : List (String × String))
    (fs : List String) :
    (dlStep fam dl wum w ff fs).ff = ff ∨
    ∃ key p, (dlStep fam dl wum w ff fs).ff = dinsert ff key p ∧
      p ∈ (dlStep fam dl wum w ff fs).fs := by
  simp only [dlStep]
  cases hu : (resolveStep wum w).1 with
  | none => left; simp [hu]
  | some u =>
      by_cases hue : u.isEmpty
      · left; simp [hu, hue]
      · simp only [hu, hue, Bool.not_false, if_true]
        rcases fetchAsset_ff_fs dl fam ((dget? weight_map w).getD "regular") u ff fs
            (resolveStep wum w).2 with h1 | ⟨h1, h2⟩
        · left; exact h1
        · right
          exact ⟨(dget? weight_map w).getD "regular",
            cachePath fam ((dget? weight_map w).getD "regular") u, h1, h2⟩

theorem dlLoop_ff_from (fam : String) (dl : String → Bool)
    (wum : List (Int × String)) :
    ∀ (ws : List Int) (ff : List (String × String)) (fs : List String)
      (kv : String × String),
      kv ∈ (dlLoop fam dl wum ws ff fs).ff →
      kv ∈ ff ∨ kv.2 ∈ (dlLoop fam dl wum ws ff fs).fs := by
  intro ws
  induction ws with
  | nil => intro ff fs kv hkv; left; simpa [dlLoop] using hkv
  | cons w ws ih =>
      intro ff fs kv hkv
      simp only [dlLoop] at hkv ⊢
      rcases ih _ _ kv hkv with h1 | h1
      · rcases dlStep_ff_fs fam dl wum w ff fs with he | ⟨key, p, he, hp⟩
        · rw [he] at h1; exact Or.inl h1
        · rw [he] at h1
          rcases mem_dinsert h1 with h2 | h2
          · right
            rw [h2]
            exact dlLoop_fs_mono fam dl wum ws _ _ p hp
          · exact Or.inl h2
      · exact Or.inr h1

theorem dlLoop_fs_from (fam : String) (dl : String → Bool)
    (wum : List (Int × String)) :
    ∀ (ws : List Int) (ff : List (String × String)) (fs : List String)
      (q : String),
      q ∈ (dlLoop fam dl wum ws ff fs).fs →
      q ∈ fs ∨ q ∈ (dlLoop fam dl wum ws ff fs).dls.map Prod.snd := by
  intro ws
  induction ws with
  | nil => intro ff fs q hq; left; simpa [dlLoop] using hq
  | cons w ws ih =>
      intro ff fs q hq
      simp only [dlLoop] at hq ⊢
      rcases ih _ _ q hq with h1 | h1
      · rcases dlStep_fs_dls fam dl wum w ff fs with ⟨he, hd⟩ | ⟨u, p, hnp, he, hd⟩
        · rw [he] at h1; exact Or.inl h1
        · rw [he] at h1
          rcases List.mem_cons.mp h1 with h2 | h2
          · right
            rw [hd, h2]
            simp
          · exact Or.inl h2
      · right
        rw [List.map_append]
        exact List.mem_append.mpr (Or.inr h1)

/-- Claim C7: for the same family and weights and an unchanged
style-sheet response (with every asset download succeeding), a first
call from an empty cache downloads each computed cache file at most once
and every path in its returned FontSet comes from one of those downloads
(so each asset is fetched exactly once); a second call starting from the
first call's on-disk state finds every computed cache path present,
performs no asset download, and returns a FontSet identical to the first
call's. -/
theorem second_fetch_pure_cache_hit (fam : String) (weights : List Int)
    (css : String) :
    (download_google_font fam weights (.ok css) (fun _ => true)
        (download_google_font fam weights (.ok css) (fun _ => true) []).fs).result =
      (download_google_font fam weights (.ok css) (fun _ => true) []).result ∧
    (download_google_font fam weights (.ok css) (fun _ => true)
        (download_google_font fam weights (.ok css) (fun _ => true) []).fs).downloads =
      [] ∧
    ((download_google_font fam weights (.ok css) (fun _ => true) []).downloads.map
        Prod.snd).Nodup ∧
    (∀ m,
      (download_google_font fam weights (.ok css) (fun _ => true) []).result =
        some m →
      ∀ kv ∈ m, kv.2 ∈
        (download_google_font fam weights (.ok css) (fun _ => true) []).downloads.map
          Prod.snd) := by
  simp only [download_google_font]
  rw [dlLoop_rerun fam (buildWeightUrlMap ((splitFontFace css).drop 1)) weights [] []]
  refine ⟨rfl, rfl, (dlLoop_dls_nodup fam _ _ weights [] []).1, ?_⟩
  intro m hm kv hkv
  split at hm
  · exact absurd hm (by simp)
  · have hm2 :
        dupRegularTo (dupRegularTo (promoteRegular
            (dlLoop fam (fun _ => true)
              (buildWeightUrlMap ((splitFontFace css).drop 1)) weights [] []).ff)
          "bold") "light" = m := by
      injection hm
    rw [← hm2] at hkv
    obtain ⟨kv1, hkv1, he1⟩ := dupRegularTo_vals hkv
    obtain ⟨kv2, hkv2, he2⟩ := dupRegularTo_vals hkv1
    obtain ⟨kv3, hkv3, he3⟩ := promoteRegular_vals hkv2
    rcases dlLoop_ff_from fam (fun _ => true)
        (buildWeightUrlMap ((splitFontFace css).drop 1)) weights [] [] kv3 hkv3
      with h0 | h0
    · simp at h0
    · rcases dlLoop_fs_from fam (fun _ => true)
          (buildWeightUrlMap ((splitFontFace css).drop 1)) weights [] [] kv3.2 h0
        with h1 | h1
      · simp at h1
      · rw [he1, he2, he3]
        exact h1

/-- Concrete instantiation of the cache-idempotence theorem: the second
call performs no asset download. -/
theorem second_fetch_pure_cache_hit_witness :
    (download_google_font "X" [300] (.ok "c") (fun _ => true)
        (download_google_font "X" [300] (.ok "c") (fun _ => true) []).fs).downloads =
      [] :=
  (second_fetch_pure_cache_hit "X" [300] "c").2.1

end FontMgmt
